import Mathlib

/-!
# Verification of the discord invite-link discovery library

A shallow embedding of the library's three pipeline stages:

* `google` — building the search URL and scanning a response body between two
  fixed delimiters (`get_full_url`, the loop of `google::search`);
* `intermediary` — scanning an arbitrary page body for `discord.gg/` invite
  tokens and normalising them (`get_url`, the loop of `intermediary::resolve`);
* `discord` — recognising the two canonical invite-URL prefixes
  (`get_invite_code`), resolving an invite against the API (`Invite.fetch`),
  and rendering the canonical URL of a resolved invite (`Invite.get_url`).

Rust strings are modelled as `List Char` (a list of Unicode scalar values),
which is exactly the content of a valid UTF-8 Rust `String`.  Byte-level
operations — `str::len` and byte-range slicing — are defined through each
character's UTF-8 size; slicing returns an `Option`, with `none` modelling the
Rust panic raised when a byte index is not a character boundary.

The HTTP transport and the JSON decoder are external collaborators of the
library; functions that use them (`Invite.fetch`, `resolve`) take them as
explicit functional parameters.
-/

/-- Byte length of a string, i.e. Rust `str::len`: the sum of the UTF-8 sizes
of its characters. -/
def byteLen (s : List Char) : Nat := (s.map Char.utf8Size).sum

/-- Rust byte slicing `(&s[..n], &s[n..])`: splits `s` at byte index `n`.
Returns `none` — modelling the Rust panic — when `n` is out of range or not a
character boundary. -/
def byteSplit : List Char → Nat → Option (List Char × List Char)
  | s, 0 => some ([], s)
  | [], _ + 1 => none
  | c :: rest, n + 1 =>
    if c.utf8Size ≤ n + 1 then
      (byteSplit rest (n + 1 - c.utf8Size)).map (fun p => (c :: p.1, p.2))
    else
      none

/-- The 27-byte canonical prefix recognised by `get_invite_code`. -/
def prefix27 : List Char := "https://discord.com/invite/".toList

/-- The 19-byte short prefix recognised by `get_invite_code`. -/
def prefix19 : List Char := "https://discord.gg/".toList

/-- The outcome of running a piece of Rust code that may panic: either the
panic, or the computed value. -/
inductive PanicOr (α : Type) where
  | panic
  | value (a : α)
deriving DecidableEq, Repr

/-- The `else if` branch of `discord::get_invite_code`:
`url.len() > 19 && &url[0..19] == "https://discord.gg/"`.
`.panic` models the panic of slicing at a non-boundary byte index. -/
def gic_gg_branch (url : List Char) : PanicOr (Option (List Char)) :=
  if 19 < byteLen url then
    match byteSplit url 19 with
    | none => .panic
    | some (p, rest) => if p = prefix19 then .value (some rest) else .value none
  else .value none

/-- `discord::get_invite_code`: extracts the invite token from one of the two
canonical URL shapes.  `.value (some tok)` and `.value none` are Rust's
`Some`/`None`; `.panic` models the panic of `&url[0..27]` (or `&url[0..19]`)
when the byte index is not a character boundary. -/
def get_invite_code (url : List Char) : PanicOr (Option (List Char)) :=
  if 27 < byteLen url then
    match byteSplit url 27 with
    | none => .panic
    | some (p, rest) => if p = prefix27 then .value (some rest) else gic_gg_branch url
  else gic_gg_branch url

example : get_invite_code "https://discord.com/invite/seaofthievescommunity".toList =
    .value (some "seaofthievescommunity".toList) := by decide

example : get_invite_code "https://discord.gg/Yyakf3".toList =
    .value (some "Yyakf3".toList) := by decide

example : get_invite_code "https://example.com/invite/x".toList = .value none := by decide

/-!
## The `string_tools` helpers

The library drives both of its scanning loops through two helpers of the
external `string_tools` crate, whose sources are not part of this repository.
They are modelled here from the specification's description of the
delimiter-scan semantics.
-/

/-- Modelled from the spec: `string_tools::get_all_after` — the text after the
first occurrence of `pat`, or the empty string when `pat` does not occur.
(An empty `pat` occurs at position `0`, so the whole text is returned.) -/
def get_all_after : List Char → List Char → List Char
  | [], _ => []
  | c :: rest, pat =>
    if pat.isPrefixOf (c :: rest) then (c :: rest).drop pat.length
    else get_all_after rest pat

/-- Modelled from the spec: the character index of the first occurrence of
`pat` in `text` (`str::find` for these all-ASCII patterns). -/
def find_sub : List Char → List Char → Option Nat
  | [], pat => if pat.isPrefixOf ([] : List Char) then some 0 else none
  | c :: rest, pat =>
    if pat.isPrefixOf (c :: rest) then some 0
    else (find_sub rest pat).map (· + 1)

/-- Modelled from the spec: `string_tools::get_all_between_strict` — the text
strictly between the first occurrence of `b` and the first following
occurrence of `e`; `none` when either delimiter is absent. -/
def get_all_between_strict (text b e : List Char) : Option (List Char) :=
  match find_sub text b with
  | none => none
  | some i =>
    match find_sub (text.drop (i + b.length)) e with
    | none => none
    | some j => some ((text.drop (i + b.length)).take j)

example : get_all_between_strict "xx<a>yy</a>zz".toList "<a>".toList "</a>".toList =
    some "yy".toList := by decide

example : get_all_after "abcabc".toList "b".toList = "cabc".toList := by decide

example : get_all_after "abc".toList "z".toList = [] := by decide

/-!
## `google` — the search stage
-/

/-- The fixed part of the google query URL built by `google::get_full_url`,
up to and including `start=`. -/
def search_base : List Char :=
  "https://www.google.com/search?q=\"discord.gg\"&tbs=qdr:h&filter=0&start=".toList

/-- Decimal rendering of a natural number (the behaviour of Rust's `Display`
for `usize` inside `format!`), with explicit fuel; `n + 1` digits of fuel are
always sufficient since the argument shrinks by a factor of ten each step. -/
def natDecimalGo : Nat → Nat → List Char → List Char
  | 0, _, acc => acc
  | fuel + 1, n, acc =>
    if n < 10 then Nat.digitChar n :: acc
    else natDecimalGo fuel (n / 10) (Nat.digitChar (n % 10) :: acc)

/-- Decimal rendering of a natural number. -/
def natDecimal (n : Nat) : List Char := natDecimalGo (n + 1) n []

/-- Reads a decimal digit string back into the natural number it denotes. -/
def parseDecimal (s : List Char) : Nat :=
  s.foldl (fun a c => 10 * a + (c.toNat - 48)) 0

/-- `google::get_full_url`: the query URL for result page `page`.  The source
takes `page: usize` (64 bits) and computes `page * 10` in machine arithmetic,
which wraps modulo `2 ^ 64` on overflow (release builds), so the rendered
offset is `page * 10 % 2 ^ 64`. -/
def get_full_url (page : Nat) : List Char :=
  search_base ++ natDecimal (page * 10 % 2 ^ 64)

example : get_full_url 1 =
    "https://www.google.com/search?q=\"discord.gg\"&tbs=qdr:h&filter=0&start=10".toList := by
  decide

/-- The start delimiter of the result-link scan in `google::search`. -/
def startDelim : List Char := "\"r\"><a href=\"".toList

/-- The end delimiter of the result-link scan in `google::search`. -/
def endDelim : List Char := "\" onmousedown=\"return rwt(".toList

/-- The body-scanning loop of `google::search`:
`while let Some(url) = get_all_between_strict(body, START, END) { rep.push(url);
body = get_all_after(body, url); }` — written with explicit fuel, `none`
meaning the loop has not finished within `fuel` iterations. -/
def search_loop : Nat → List Char → List (List Char) → Option (List (List Char))
  | 0, _, _ => none
  | fuel + 1, body, rep =>
    match get_all_between_strict body startDelim endDelim with
    | none => some rep
    | some url => search_loop fuel (get_all_after body url) (rep ++ [url])

/-!
## `intermediary` — the token-extraction stage
-/

/-- Rust `char::is_ascii_alphanumeric`. -/
def is_ascii_alphanumeric (c : Char) : Bool :=
  ('A' ≤ c && c ≤ 'Z') || ('a' ≤ c && c ≤ 'z') || ('0' ≤ c && c ≤ '9')

/-- The character class accepted by `intermediary::get_url`'s scan:
`c.is_ascii_alphanumeric() || c == '-' || c == '/' || c == '_'`
(the loop `break`s on the first character outside this class). -/
def is_url_char (c : Char) : Bool :=
  is_ascii_alphanumeric c || c = '-' || c = '/' || c = '_'

/-- The loop counter `i` of `intermediary::get_url`: the number of leading
characters of `url` inside the accepted class. -/
def get_url_count : List Char → Nat
  | [] => 0
  | c :: rest => if is_url_char c then get_url_count rest + 1 else 0

/-- `intermediary::get_url`: counts the leading accepted characters and
byte-slices the input at that count (`&url[..i]`).  `.panic` models the Rust
panic of slicing off a character boundary; `get_url_no_panic` below proves it
never happens, because every accepted character is one ASCII byte. -/
def get_url (url : List Char) : PanicOr (List Char) :=
  match byteSplit url (get_url_count url) with
  | some (pre, _) => .value pre
  | none => .panic

/-- The value `intermediary::get_url` always computes: the longest prefix of
characters in the accepted class. -/
def get_url_pure (url : List Char) : List Char := url.takeWhile is_url_char

/-- The substring whose occurrences drive the extraction scan. -/
def gg_pat : List Char := "discord.gg/".toList

/-- `if !rep.contains(&url) { rep.push(url); }` from `intermediary::resolve`:
appends `u` only when it is not already present. -/
def insertDedup (rep : List (List Char)) (u : List Char) : List (List Char) :=
  if u ∈ rep then rep else rep ++ [u]

/-- First-seen deduplication of a list: fold `insertDedup` over it, starting
from the empty accumulator. -/
def dedupFirst (xs : List (List Char)) : List (List Char) := xs.foldl insertDedup []

/-- The body-scanning loop of `intermediary::resolve`:
`while get_all_after(&body, "discord.gg/") != "" { let url = get_url(...);
body = get_all_after(...); if url.len() == 7 { canonicalise } else { continue };
if !rep.contains(&url) { rep.push(url) } }` — with explicit fuel; one unit of
fuel per iteration, and `body.length` units always suffice because each
iteration strictly shortens the body (`extract_go_congr` below). -/
def extract_go : Nat → List Char → List (List Char) → List (List Char)
  | 0, _, rep => rep
  | fuel + 1, body, rep =>
    let rem := get_all_after body gg_pat
    if rem = [] then rep
    else
      let cand := get_url_pure rem
      if cand.length = 7 then extract_go fuel rem (insertDedup rep (prefix27 ++ cand))
      else extract_go fuel rem rep

/-- The pure extraction performed by `intermediary::resolve` on a page body:
every scanned token of length exactly 7 is emitted as
`https://discord.com/invite/<token>`, deduplicated, in first-seen order. -/
def extract_invites (body : List Char) : List (List Char) :=
  extract_go body.length body []

/-- The raw candidate tokens visited by the extraction scan, in scan order:
at each `discord.gg/` occurrence reached by the loop, the longest following
run of accepted characters.  This is the specification-side reading of the
loop, used to state which candidates are accepted. -/
def raw_candidates_go : Nat → List Char → List (List Char)
  | 0, _ => []
  | fuel + 1, body =>
    let rem := get_all_after body gg_pat
    if rem = [] then []
    else get_url_pure rem :: raw_candidates_go fuel rem

/-- The raw candidate tokens visited by the extraction scan on `body`. -/
def raw_candidates (body : List Char) : List (List Char) :=
  raw_candidates_go body.length body

example : extract_invites "see discord.gg/Ab3dE9f now".toList =
    [prefix27 ++ "Ab3dE9f".toList] := by decide

example : extract_invites "see discord.gg/Ab3dE9 now".toList = [] := by decide

example : extract_invites "no invite here".toList = [] := by decide

example : extract_invites "a discord.gg/Ab3dE9f b discord.gg/Ab3dE9f c".toList =
    [prefix27 ++ "Ab3dE9f".toList] := by decide

/-!
## `discord` — the resolution stage
-/

/-- The library's two-variant error taxonomy (`Error` in the source). -/
inductive RError where
  | Timeout
  | InvalidResponse
deriving DecidableEq, Repr

/-- `discord::Guild`. -/
structure Guild where
  banner : Option (List Char)
  description : Option (List Char)
  id : List Char
  icon : Option (List Char)
  name : List Char
  splash : Option (List Char)
  vanity_url_code : Option (List Char)
  verification_level : Nat
deriving DecidableEq, Repr

/-- `discord::Channel`. -/
structure Channel where
  id : List Char
  name : Option (List Char)
  type : Nat
deriving DecidableEq, Repr

/-- `discord::User`. -/
structure User where
  id : List Char
  username : List Char
  avatar : Option (List Char)
  discriminator : List Char
deriving DecidableEq, Repr

/-- `discord::Invite` — the terminal record of a successful resolution. -/
structure Invite where
  code : List Char
  guild : Option Guild
  channel : Channel
  inviter : Option User
  approximate_member_count : Nat
  approximate_presence_count : Nat
deriving DecidableEq, Repr

/-- An HTTP response as the library observes it through `minreq`:
a status code, and the body as text (`none` when `response.as_str()` fails). -/
structure Resp where
  status_code : Nat
  body : Option (List Char)
deriving DecidableEq, Repr

/-- The outcome of a library call that performs I/O: a panic, a typed error,
or a value. -/
inductive Outcome (α : Type) where
  | panic
  | err (e : RError)
  | ok (a : α)
deriving DecidableEq, Repr

/-- The fixed part of the API URL built by `Invite::fetch`, before the token. -/
def api_base : List Char := "https://discord.com/api/v6/invites/".toList

/-- The fixed part of the API URL built by `Invite::fetch`, after the token. -/
def api_query : List Char := "?with_counts=true".toList

/-- `discord::Invite::fetch`, with the HTTP transport and the JSON decoder —
external collaborators of the library — passed as functions: `transport`
returns `none` on transport failure, and `decode` is `serde_json::from_str`
into `Invite` (`none` on a decode error). -/
def Invite.fetch (decode : List Char → Option Invite)
    (transport : List Char → Option Resp) (url : List Char) : Outcome Invite :=
  match get_invite_code url with
  | .panic => .panic
  | .value none => .err .InvalidResponse
  | .value (some code) =>
    match transport (api_base ++ code ++ api_query) with
    | none => .err .Timeout
    | some response =>
      if response.status_code = 200 then
        match response.body with
        | some body =>
          match decode body with
          | some invite => .ok invite
          | none => .err .InvalidResponse
        | none => .err .InvalidResponse
      else .err .InvalidResponse

/-- `discord::Invite::get_url`: `format!("https://discord.com/invite/{}", self.code)`. -/
def Invite.get_url (i : Invite) : List Char := prefix27 ++ i.code

/-- `intermediary::resolve`, with the transport passed as a function: fetches
`url`, and scans the body with the extraction loop. -/
def resolve (transport : List Char → Option Resp) (url : List Char) :
    Outcome (List (List Char)) :=
  match transport url with
  | none => .err .Timeout
  | some response =>
    match response.body with
    | some body => .ok (extract_invites body)
    | none => .err .InvalidResponse

/-!
## Concrete inputs and records used by the claim analyses
-/

/-- A URL whose byte 27 falls inside the two-byte character `é`:
26 ASCII bytes, then `é` (bytes 26–27), then `x` — 29 bytes in total, so both
length guards pass but byte index 27 is not a character boundary. -/
def c1_bad_url : List Char := "https://discord.com/invite".toList ++ ['é', 'x']

/-- A response body in which the start delimiter is immediately followed by
the end delimiter, so the captured span is empty. -/
def c5_body : List Char := startDelim ++ endDelim

/-- A page body whose scanned candidate token contains a slash. -/
def c9_body : List Char := "x discord.gg/ab/de9X y".toList

/-- The character class of the spec's InviteToken data-model invariant:
alphanumeric, hyphen or underscore — written from the spec's words, to be
compared with the class the code actually accepts (`is_url_char`). -/
def is_invite_token_char (c : Char) : Bool :=
  is_ascii_alphanumeric c || c = '-' || c = '_'

/-- An invite record whose `code` differs from any requested token. -/
def c8_invite : Invite :=
  ⟨"zzzzzzz".toList, none, ⟨"1".toList, none, 0⟩, none, 0, 0⟩

/-- An invite record whose `code` is the token `abcdefg`. -/
def c8_good_invite : Invite :=
  ⟨"abcdefg".toList, none, ⟨"1".toList, none, 0⟩, none, 0, 0⟩

/-!
## Byte-level lemmas
-/

lemma byteLen_nil : byteLen [] = 0 := rfl

lemma byteLen_cons (c : Char) (s : List Char) :
    byteLen (c :: s) = c.utf8Size + byteLen s := by
  simp [byteLen]

lemma byteLen_append (a b : List Char) : byteLen (a ++ b) = byteLen a + byteLen b := by
  simp [byteLen]

lemma byteLen_pos {s : List Char} (h : s ≠ []) : 0 < byteLen s := by
  cases s with
  | nil => exact absurd rfl h
  | cons c rest =>
    have := Char.utf8Size_pos c
    rw [byteLen_cons]
    omega

/-- Splitting `p ++ s` at byte index `p.length` succeeds when every character
of `p` occupies one byte. -/
lemma byteSplit_ascii :
    ∀ (p s : List Char), (∀ c ∈ p, c.utf8Size = 1) →
      byteSplit (p ++ s) p.length = some (p, s) := by
  intro p
  induction p with
  | nil => intro s _; simp [byteSplit]
  | cons c p ih =>
    intro s h
    have hc : c.utf8Size = 1 := h c (List.mem_cons_self c p)
    have hrest : ∀ x ∈ p, x.utf8Size = 1 := fun x hx => h x (List.mem_cons_of_mem c hx)
    simp [byteSplit, hc, ih s hrest]

/-- A successful byte split decomposes the string, and the left part has
exactly the requested byte length. -/
lemma byteSplit_eq_some :
    ∀ (s : List Char) (n : Nat) (a b : List Char),
      byteSplit s n = some (a, b) → s = a ++ b ∧ byteLen a = n := by
  intro s
  induction s with
  | nil =>
    intro n a b h
    cases n with
    | zero =>
      simp [byteSplit] at h
      obtain ⟨rfl, rfl⟩ := h
      simp [byteLen_nil]
    | succ n => simp [byteSplit] at h
  | cons c rest ih =>
    intro n a b h
    cases n with
    | zero =>
      simp [byteSplit] at h
      obtain ⟨rfl, rfl⟩ := h
      simp [byteLen_nil]
    | succ n =>
      by_cases hsz : c.utf8Size ≤ n + 1
      · simp [byteSplit, hsz] at h
        cases heq : byteSplit rest (n + 1 - c.utf8Size) with
        | none => rw [heq] at h; simp at h
        | some pr =>
          obtain ⟨p1, p2⟩ := pr
          rw [heq] at h
          simp at h
          obtain ⟨w, ⟨rfl, rfl⟩, rfl⟩ := h
          obtain ⟨hdecomp, hlen⟩ := ih (n + 1 - c.utf8Size) p1 p2 heq
          constructor
          · simp [hdecomp]
          · rw [byteLen_cons]; omega
      · simp [byteSplit, hsz] at h

/-!
## The `get_url` character scan never panics
-/

/-- `Char` order transported to the numeric code points. -/
lemma char_le_toNat {a b : Char} (h : a ≤ b) : a.toNat ≤ b.toNat := by
  rw [Char.le_def, UInt32.le_def, BitVec.le_def] at h
  exact h

/-- A character whose code point is below 128 is one UTF-8 byte. -/
lemma utf8Size_one_of_toNat (c : Char) (h : c.toNat < 128) : c.utf8Size = 1 := by
  unfold Char.utf8Size
  dsimp only
  split
  · rfl
  · rename_i hc
    exfalso
    rw [UInt32.le_def, BitVec.le_def] at hc
    have h127 : (UInt32.ofNatCore 127 Char.utf8Size.proof_1).toBitVec.toNat = 127 := rfl
    have hv : c.val.toBitVec.toNat = c.toNat := rfl
    rw [h127, hv] at hc
    exact hc (by omega)

/-- Every character accepted by the `get_url` scan is a single ASCII byte. -/
lemma is_url_char_utf8Size {c : Char} (h : is_url_char c = true) : c.utf8Size = 1 := by
  apply utf8Size_one_of_toNat
  simp only [is_url_char, is_ascii_alphanumeric, Bool.or_eq_true, Bool.and_eq_true,
    decide_eq_true_eq] at h
  rcases h with ((((⟨_, h2⟩ | ⟨_, h2⟩) | ⟨_, h2⟩) | rfl) | rfl) | rfl
  · have hb := char_le_toNat h2
    have hz : ('Z').toNat = 90 := rfl
    omega
  · have hb := char_le_toNat h2
    have hz : ('z').toNat = 122 := rfl
    omega
  · have hb := char_le_toNat h2
    have hz : ('9').toNat = 57 := rfl
    omega
  · decide
  · decide
  · decide

/-- `intermediary::get_url` never panics: its byte slice always lands on a
character boundary, and the result is the longest accepted-character prefix. -/
lemma get_url_no_panic (url : List Char) : get_url url = .value (get_url_pure url) := by
  induction url with
  | nil => rfl
  | cons c rest ih =>
    by_cases hc : is_url_char c
    · have hsz : c.utf8Size = 1 := is_url_char_utf8Size hc
      unfold get_url at ih ⊢
      cases heq : byteSplit rest (get_url_count rest) with
      | none => rw [heq] at ih; simp at ih
      | some pr =>
        rw [heq] at ih
        simp at ih
        simp [get_url_count, hc, byteSplit, hsz, heq, get_url_pure, ih]
    · simp [get_url, get_url_count, hc, byteSplit, get_url_pure]

/-!
## `get_all_after` lemmas
-/

/-- The empty pattern occurs at position `0`, so `get_all_after` returns the
whole text: this is what keeps the `google::search` loop from advancing when
a captured span is empty. -/
lemma get_all_after_nil (t : List Char) : get_all_after t [] = t := by
  cases t with
  | nil => rfl
  | cons c rest => simp [get_all_after, List.isPrefixOf]

/-- When the pattern is non-empty, `get_all_after` strictly shortens any text
in which it occurs (i.e. any text on which it returns a non-empty remainder,
or in fact any text at all when the result is non-empty). -/
lemma get_all_after_length_lt :
    ∀ (body pat : List Char), pat ≠ [] → get_all_after body pat ≠ [] →
      (get_all_after body pat).length < body.length := by
  intro body
  induction body with
  | nil => intro pat _ h; simp [get_all_after] at h
  | cons c rest ih =>
    intro pat hp h
    by_cases hpre : pat.isPrefixOf (c :: rest)
    · simp only [get_all_after, hpre, if_true] at h ⊢
      have hplen : 0 < pat.length := List.length_pos.mpr hp
      simp only [List.length_drop]
      simp only [List.length_cons]
      omega
    · simp only [get_all_after, hpre, if_false] at h ⊢
      exact lt_trans (ih pat hp h) (by simp)

/-!
## The extraction loop: characterisation, dedup, order
-/

/-- Membership in `insertDedup`. -/
lemma mem_insertDedup (rep : List (List Char)) (x u : List Char) :
    u ∈ insertDedup rep x ↔ u ∈ rep ∨ u = x := by
  unfold insertDedup
  by_cases hx : x ∈ rep
  · simp only [hx, if_true]
    constructor
    · exact Or.inl
    · rintro (h | rfl)
      · exact h
      · exact hx
  · simp [hx]

/-- `insertDedup` preserves `Nodup`. -/
lemma nodup_insertDedup (rep : List (List Char)) (x : List Char) (h : rep.Nodup) :
    (insertDedup rep x).Nodup := by
  unfold insertDedup
  by_cases hx : x ∈ rep
  · simpa [hx] using h
  · simp [hx, List.nodup_append, h]

/-- Membership in a fold of `insertDedup`. -/
lemma mem_foldl_insertDedup :
    ∀ (l : List (List Char)) (rep : List (List Char)) (u : List Char),
      u ∈ l.foldl insertDedup rep ↔ u ∈ rep ∨ u ∈ l := by
  intro l
  induction l with
  | nil => simp
  | cons x l ih =>
    intro rep u
    rw [List.foldl_cons, ih, mem_insertDedup]
    simp [or_assoc]

/-- A fold of `insertDedup` from a duplicate-free accumulator stays
duplicate-free. -/
lemma nodup_foldl_insertDedup :
    ∀ (l : List (List Char)) (rep : List (List Char)), rep.Nodup →
      (l.foldl insertDedup rep).Nodup := by
  intro l
  induction l with
  | nil => intro rep h; exact h
  | cons x l ih =>
    intro rep h
    rw [List.foldl_cons]
    exact ih _ (nodup_insertDedup rep x h)

/-- The extraction loop is the `insertDedup`-fold of the canonical URLs of
exactly the length-7 raw candidates, in scan order. -/
lemma extract_go_eq_foldl :
    ∀ (fuel : Nat) (body : List Char) (rep : List (List Char)),
      extract_go fuel body rep =
        (((raw_candidates_go fuel body).filter (fun t => t.length == 7)).map
          (fun t => prefix27 ++ t)).foldl insertDedup rep := by
  intro fuel
  induction fuel with
  | zero => intro body rep; simp [extract_go, raw_candidates_go]
  | succ fuel ih =>
    intro body rep
    simp only [extract_go, raw_candidates_go]
    by_cases h : get_all_after body gg_pat = []
    · simp [h]
    · simp only [h, if_false]
      by_cases h7 : (get_url_pure (get_all_after body gg_pat)).length = 7
      · simp [h7, ih, List.filter_cons, List.foldl_cons]
      · simp [h7, ih, List.filter_cons, List.foldl_cons]

/-- The full-program characterisation: `extract_invites` is the first-seen
deduplication of the canonical URLs of the accepted (length-7) candidates. -/
lemma extract_invites_eq :
    ∀ body : List Char,
      extract_invites body =
        dedupFirst (((raw_candidates body).filter (fun t => t.length == 7)).map
          (fun t => prefix27 ++ t)) := by
  intro body
  unfold extract_invites raw_candidates dedupFirst
  exact extract_go_eq_foldl body.length body []

/-- Any fuel of at least `body.length` computes the same extraction result:
each loop iteration strictly shortens the body, so `extract_invites`' choice
of `body.length` units of fuel is enough for the loop to run to completion. -/
lemma extract_go_congr :
    ∀ (f1 f2 : Nat) (body : List Char) (rep : List (List Char)),
      body.length ≤ f1 → body.length ≤ f2 →
      extract_go f1 body rep = extract_go f2 body rep := by
  intro f1
  induction f1 with
  | zero =>
    intro f2 body rep h1 _
    have hb : body = [] := List.eq_nil_of_length_eq_zero (Nat.le_zero.mp h1)
    subst hb
    cases f2 with
    | zero => rfl
    | succ b => simp [extract_go, get_all_after]
  | succ a ih =>
    intro f2 body rep h1 h2
    cases f2 with
    | zero =>
      have hb : body = [] := List.eq_nil_of_length_eq_zero (Nat.le_zero.mp h2)
      subst hb
      simp [extract_go, get_all_after]
    | succ b =>
      simp only [extract_go]
      by_cases hrem : get_all_after body gg_pat = []
      · simp [hrem]
      · simp only [hrem, if_false]
        have hlt : (get_all_after body gg_pat).length < body.length :=
          get_all_after_length_lt body gg_pat (by decide) hrem
        have ha : (get_all_after body gg_pat).length ≤ a := by omega
        have hb : (get_all_after body gg_pat).length ≤ b := by omega
        by_cases h7 : (get_url_pure (get_all_after body gg_pat)).length = 7
        · simp only [h7, if_true]
          exact ih b _ _ ha hb
        · simp only [h7, if_false]
          exact ih b _ _ ha hb

/-- Every raw candidate consists only of characters in the accepted class. -/
lemma raw_candidates_chars :
    ∀ (fuel : Nat) (body t : List Char), t ∈ raw_candidates_go fuel body →
      ∀ c ∈ t, is_url_char c := by
  intro fuel
  induction fuel with
  | zero => intro body t ht; simp [raw_candidates_go] at ht
  | succ fuel ih =>
    intro body t ht c hc
    simp only [raw_candidates_go] at ht
    by_cases h : get_all_after body gg_pat = []
    · simp [h] at ht
    · simp only [h, if_false, List.mem_cons] at ht
      rcases ht with rfl | ht
      · exact List.mem_takeWhile_imp hc
      · exact ih _ _ ht c hc

/-!
## Decimal rendering round-trip
-/

/-- A rendered decimal digit reads back as its value. -/
lemma digitChar_toNat (d : Nat) (h : d < 10) : (Nat.digitChar d).toNat - 48 = d := by
  interval_cases d <;> rfl

/-- Parsing inverts the fuelled decimal rendering. -/
lemma parse_natDecimalGo :
    ∀ (fuel n : Nat) (acc : List Char), n < fuel →
      List.foldl (fun a c => 10 * a + (c.toNat - 48)) 0 (natDecimalGo fuel n acc) =
        List.foldl (fun a c => 10 * a + (c.toNat - 48)) n acc := by
  intro fuel
  induction fuel with
  | zero => intro n acc h; omega
  | succ fuel ih =>
    intro n acc h
    by_cases h10 : n < 10
    · simp only [natDecimalGo, h10, if_true, List.foldl_cons]
      rw [digitChar_toNat n h10]
      have hz : 10 * 0 + n = n := by omega
      rw [hz]
    · simp only [natDecimalGo, h10, if_false]
      have hdiv : n / 10 < fuel := by
        have h1 : n / 10 < n := Nat.div_lt_self (by omega) (by omega)
        omega
      rw [ih (n / 10) (Nat.digitChar (n % 10) :: acc) hdiv]
      rw [List.foldl_cons, digitChar_toNat (n % 10) (Nat.mod_lt n (by omega))]
      have : 10 * (n / 10) + n % 10 = n := Nat.div_add_mod n 10
      rw [this]

/-- Parsing inverts the decimal rendering. -/
lemma parseDecimal_natDecimal (n : Nat) : parseDecimal (natDecimal n) = n := by
  unfold parseDecimal natDecimal
  rw [parse_natDecimalGo (n + 1) n [] (Nat.lt_succ_self n)]
  rfl

/-!
## Structural lemmas about `get_invite_code`
-/

lemma prefix27_ascii : ∀ c ∈ prefix27, c.utf8Size = 1 := by decide

lemma prefix19_ascii : ∀ c ∈ prefix19, c.utf8Size = 1 := by decide

lemma prefix27_length : prefix27.length = 27 := by decide

lemma prefix19_length : prefix19.length = 19 := by decide

lemma byteLen_prefix27 : byteLen prefix27 = 27 := by decide

lemma byteLen_prefix19 : byteLen prefix19 = 19 := by decide

/-- On a strict extension of the long canonical prefix, `get_invite_code`
returns the remainder. -/
lemma gic_canon27 (r : List Char) (hr : r ≠ []) :
    get_invite_code (prefix27 ++ r) = .value (some r) := by
  have hlen : byteLen (prefix27 ++ r) = 27 + byteLen r := by
    rw [byteLen_append, byteLen_prefix27]
  have h27 : 27 < byteLen (prefix27 ++ r) := by
    have := byteLen_pos hr
    omega
  have hsplit : byteSplit (prefix27 ++ r) 27 = some (prefix27, r) := by
    have := byteSplit_ascii prefix27 r prefix27_ascii
    rwa [prefix27_length] at this
  simp [get_invite_code, h27, hsplit]

/-- The `discord.gg/` branch returns the remainder on a strict extension of
the short prefix (whenever it is reached). -/
lemma gic_gg_canon19 (r : List Char) (hr : r ≠ []) :
    gic_gg_branch (prefix19 ++ r) = .value (some r) := by
  have hlen : byteLen (prefix19 ++ r) = 19 + byteLen r := by
    rw [byteLen_append, byteLen_prefix19]
  have h19 : 19 < byteLen (prefix19 ++ r) := by
    have := byteLen_pos hr
    omega
  have hsplit : byteSplit (prefix19 ++ r) 19 = some (prefix19, r) := by
    have := byteSplit_ascii prefix19 r prefix19_ascii
    rwa [prefix19_length] at this
  simp [gic_gg_branch, h19, hsplit]

/-- Forward direction of the `discord.gg/` branch: a returned token is a
non-empty strict remainder of the short prefix. -/
lemma gic_gg_value_some (url r : List Char) (h : gic_gg_branch url = .value (some r)) :
    url = prefix19 ++ r ∧ r ≠ [] := by
  unfold gic_gg_branch at h
  by_cases h19 : 19 < byteLen url
  · simp only [h19, if_true] at h
    cases hb : byteSplit url 19 with
    | none => rw [hb] at h; exact absurd h (by simp)
    | some pr =>
      obtain ⟨p1, p2⟩ := pr
      rw [hb] at h
      by_cases hp : p1 = prefix19
      · simp only [hp, if_true, PanicOr.value.injEq, Option.some.injEq] at h
        subst h
        obtain ⟨hdecomp, hblen⟩ := byteSplit_eq_some url 19 p1 p2 hb
        constructor
        · rw [hdecomp, hp]
        · intro hre
          rw [hre, List.append_nil] at hdecomp
          rw [hdecomp] at h19
          omega
      · simp [hp] at h
  · simp [h19] at h

/-- Forward direction of `get_invite_code`: a returned token is a non-empty
strict remainder of one of the two canonical prefixes. -/
lemma gic_value_some (url r : List Char) (h : get_invite_code url = .value (some r)) :
    (url = prefix27 ++ r ∨ url = prefix19 ++ r) ∧ r ≠ [] := by
  unfold get_invite_code at h
  by_cases h27 : 27 < byteLen url
  · simp only [h27, if_true] at h
    cases hb : byteSplit url 27 with
    | none => rw [hb] at h; exact absurd h (by simp)
    | some pr =>
      obtain ⟨p1, p2⟩ := pr
      rw [hb] at h
      by_cases hp : p1 = prefix27
      · simp only [hp, if_true, PanicOr.value.injEq, Option.some.injEq] at h
        subst h
        obtain ⟨hdecomp, hblen⟩ := byteSplit_eq_some url 27 p1 p2 hb
        refine ⟨Or.inl (by rw [hdecomp, hp]), ?_⟩
        intro hre
        rw [hre, List.append_nil] at hdecomp
        rw [hdecomp] at h27
        omega
      · simp only [hp, if_false] at h
        obtain ⟨hurl, hr⟩ := gic_gg_value_some url r h
        exact ⟨Or.inr hurl, hr⟩
  · simp only [h27, if_false] at h
    obtain ⟨hurl, hr⟩ := gic_gg_value_some url r h
    exact ⟨Or.inr hurl, hr⟩

/-!
## The claims
-/

/-- Claim C1 (code bug): the spec promises that malformed external input never
panics, but `get_invite_code` byte-slices `&url[0..27]` after checking only
the byte length: on `c1_bad_url` — 29 bytes whose byte 27 falls inside the
two-byte character `é` — the slice is off a character boundary and the code
panics, and `Invite::fetch` propagates the panic, instead of returning
`InvalidResponse`. -/
theorem c1_nonboundary_slice_panics :
    get_invite_code c1_bad_url = .panic ∧
      Invite.fetch (fun _ => none) (fun _ => none) c1_bad_url = .panic := by
  decide

/-- Claim C3, counterexample: the claim says `get_invite_code` returns the
remainder exactly when the URL starts with one of the two prefixes, but on the
bare 27-character prefix itself — which starts with the prefix — the strict
length comparison makes it return `None`. -/
theorem c3_bare_prefix_returns_none :
    prefix27.isPrefixOf prefix27 = true ∧ get_invite_code prefix27 = .value none := by
  decide

/-- Claim C3, amended: on every URL on which `get_invite_code` does not panic,
it returns `Some r` exactly when the URL is one of the two canonical prefixes
followed by a non-empty remainder `r`. -/
theorem c3_prefix_extraction (url r : List Char)
    (hnp : get_invite_code url ≠ .panic) :
    get_invite_code url = .value (some r) ↔
      ((url = prefix27 ++ r ∨ url = prefix19 ++ r) ∧ r ≠ []) := by
  constructor
  · exact gic_value_some url r
  · rintro ⟨hor, hr⟩
    rcases hor with rfl | rfl
    · exact gic_canon27 r hr
    · by_cases h27 : 27 < byteLen (prefix19 ++ r)
      · unfold get_invite_code
        simp only [h27, if_true]
        cases hb : byteSplit (prefix19 ++ r) 27 with
        | none =>
          exfalso
          apply hnp
          unfold get_invite_code
          simp [h27, hb]
        | some pr =>
          obtain ⟨p1, p2⟩ := pr
          have hp : p1 ≠ prefix27 := by
            intro hp
            obtain ⟨hdecomp, _⟩ := byteSplit_eq_some _ 27 p1 p2 hb
            rw [hp] at hdecomp
            have h1 : (prefix19 ++ r).take 19 = prefix19 := by
              have := List.take_left prefix19 r
              rwa [prefix19_length] at this
            have h2 : (prefix27 ++ p2).take 19 = prefix27.take 19 := by
              apply List.take_append_of_le_length
              rw [prefix27_length]
              omega
            rw [hdecomp, h2] at h1
            exact absurd h1 (by decide)
          simp only [hp, if_false]
          exact gic_gg_canon19 r hr
      · unfold get_invite_code
        simp only [h27, if_false]
        exact gic_gg_canon19 r hr

/-- Witness for C3's amended theorem at a concrete input. -/
theorem c3_prefix_extraction_witness :
    get_invite_code "https://discord.gg/Yyakf3".toList = .value (some "Yyakf3".toList) :=
  (c3_prefix_extraction "https://discord.gg/Yyakf3".toList "Yyakf3".toList
    (by decide)).mpr (by decide)

/-- Claim C10: `get_invite_code` never returns an empty token: the bare
prefixes themselves yield `None` (the length comparisons are strict), and
every returned token has length at least 1. -/
theorem c10_no_empty_token :
    get_invite_code prefix27 = .value none ∧ get_invite_code prefix19 = .value none ∧
      ∀ url r, get_invite_code url = .value (some r) → 1 ≤ r.length := by
  refine ⟨by decide, by decide, ?_⟩
  intro url r h
  exact List.length_pos.mpr (gic_value_some url r h).2

/-- Witness for C10 at a concrete input. -/
theorem c10_no_empty_token_witness : 1 ≤ ("Yyakf3".toList).length :=
  c10_no_empty_token.2.2 "https://discord.gg/Yyakf3".toList "Yyakf3".toList (by decide)

/-- Claim C7, counterexample: the claim asserts `start = p * 10` for every
page index, but `page * 10` is a `usize` multiplication and wraps at `2 ^ 64`:
at `p = 2 ^ 63` the product wraps to `0`, so the rendered `start` parameter is
`0`, not `p * 10`. -/
theorem c7_overflow_wraps :
    parseDecimal ((get_full_url (2 ^ 63)).drop search_base.length) = 0 ∧
      2 ^ 63 * 10 ≠ 0 := by
  decide

/-- Claim C7, amended: the search URL is the fixed base (ending in `start=`)
followed by the decimal digits of `page * 10 % 2 ^ 64` — the wrapped `usize`
product — which equals `page * 10` exactly when that product does not
overflow, i.e. for every page index with `page * 10 < 2 ^ 64`. -/
theorem c7_start_offset (p : Nat) :
    (get_full_url p).take search_base.length = search_base ∧
      parseDecimal ((get_full_url p).drop search_base.length) = p * 10 % 2 ^ 64 ∧
      (p * 10 < 2 ^ 64 →
        parseDecimal ((get_full_url p).drop search_base.length) = p * 10) := by
  have hparse : parseDecimal ((get_full_url p).drop search_base.length) = p * 10 % 2 ^ 64 := by
    unfold get_full_url
    rw [List.drop_left]
    exact parseDecimal_natDecimal (p * 10 % 2 ^ 64)
  refine ⟨?_, hparse, ?_⟩
  · unfold get_full_url
    exact List.take_left search_base (natDecimal (p * 10 % 2 ^ 64))
  · intro h
    rw [hparse]
    exact Nat.mod_eq_of_lt h

/-- Witness for C7's amended theorem at a concrete page index. -/
theorem c7_start_offset_witness :
    parseDecimal ((get_full_url 1).drop search_base.length) = 1 * 10 :=
  (c7_start_offset 1).2.2 (by decide)

/-- On the adjacent-delimiter body, the scan captures the empty span. -/
lemma c5_capture_empty :
    get_all_between_strict c5_body startDelim endDelim = some [] := by decide

/-- Claim C5 (code bug): the spec says the delimiter-scan loop terminates for
every body, including when the delimiters are adjacent; but on such a body the
captured span is empty, `get_all_after body Nil` returns the whole body, the
scan position never advances, and the loop of `google::search` runs forever —
no amount of fuel finishes it. -/
theorem c5_search_loop_diverges :
    ∀ (fuel : Nat) (rep : List (List Char)), search_loop fuel c5_body rep = none := by
  intro fuel
  induction fuel with
  | zero => intro rep; rfl
  | succ fuel ih =>
    intro rep
    show (match get_all_between_strict c5_body startDelim endDelim with
      | none => some rep
      | some url => search_loop fuel (get_all_after c5_body url) (rep ++ [url])) = none
    rw [c5_capture_empty]
    show search_loop fuel (get_all_after c5_body []) (rep ++ [[]]) = none
    rw [get_all_after_nil]
    exact ih (rep ++ [[]])

/-- Claim C4: `Invite::fetch` follows the error taxonomy exactly: no token →
`InvalidResponse` with no network request (the result is the same under every
transport); transport failure → `Timeout`; non-200 status →
`InvalidResponse` without consulting the decoder; unreadable body or decode
failure → `InvalidResponse`; successful decode → the invite, unchanged. -/
theorem c4_fetch_error_taxonomy (decode : List Char → Option Invite)
    (transport : List Char → Option Resp) (url : List Char) :
    (get_invite_code url = .value none →
        Invite.fetch decode transport url = .err .InvalidResponse ∧
        ∀ transport2, Invite.fetch decode transport2 url = .err .InvalidResponse) ∧
    (∀ code, get_invite_code url = .value (some code) →
      (transport (api_base ++ code ++ api_query) = none →
          Invite.fetch decode transport url = .err .Timeout) ∧
      (∀ resp, transport (api_base ++ code ++ api_query) = some resp →
        (resp.status_code ≠ 200 →
            ∀ decode2, Invite.fetch decode2 transport url = .err .InvalidResponse) ∧
        (resp.status_code = 200 → resp.body = none →
            Invite.fetch decode transport url = .err .InvalidResponse) ∧
        (∀ body, resp.status_code = 200 → resp.body = some body → decode body = none →
            Invite.fetch decode transport url = .err .InvalidResponse) ∧
        (∀ body inv, resp.status_code = 200 → resp.body = some body →
            decode body = some inv →
            Invite.fetch decode transport url = .ok inv))) := by
  constructor
  · intro h
    refine ⟨by simp [Invite.fetch, h], fun t2 => by simp [Invite.fetch, h]⟩
  · intro code hc
    constructor
    · intro ht
      rw [List.append_assoc] at ht
      simp [Invite.fetch, hc, ht]
    · intro resp hr
      rw [List.append_assoc] at hr
      refine ⟨?_, ?_, ?_, ?_⟩
      · intro hs d2
        simp [Invite.fetch, hc, hr, hs]
      · intro hs hb
        simp [Invite.fetch, hc, hr, hs, hb]
      · intro body hs hb hd
        simp [Invite.fetch, hc, hr, hs, hb, hd]
      · intro body inv hs hb hd
        simp [Invite.fetch, hc, hr, hs, hb, hd]

/-- Witness for C4 at a concrete input: an unrecognised URL shape fails with
`InvalidResponse`. -/
theorem c4_fetch_error_taxonomy_witness :
    Invite.fetch (fun _ => none) (fun _ => none) "https://example.com/invite/x".toList =
      .err .InvalidResponse :=
  ((c4_fetch_error_taxonomy (fun _ => none) (fun _ => none)
    "https://example.com/invite/x".toList).1 (by decide)).1

/-- Claim C2: a raw candidate visited by the extraction scan appears in the
output (as its canonical URL) exactly when its length is 7; a 7-character
token yields its canonical URL, and tokens of length 6 or 8 at the same
position yield no entry while the scan carries on. -/
theorem c2_candidate_accepted_iff_len7 :
    (∀ body t, t ∈ raw_candidates body →
        ((prefix27 ++ t) ∈ extract_invites body ↔ t.length = 7)) ∧
    extract_invites "see discord.gg/Ab3dE9f now".toList =
      [prefix27 ++ "Ab3dE9f".toList] ∧
    extract_invites "see discord.gg/Ab3dE9 now".toList = [] ∧
    extract_invites "see discord.gg/Ab3dE9fG now".toList = [] := by
  refine ⟨?_, by decide, by decide, by decide⟩
  intro body t ht
  rw [extract_invites_eq body]
  unfold dedupFirst
  rw [mem_foldl_insertDedup]
  simp only [List.not_mem_nil, false_or]
  constructor
  · intro hmem
    rw [List.mem_map] at hmem
    obtain ⟨u, hu, hequ⟩ := hmem
    have : u = t := List.append_cancel_left hequ
    subst this
    have := List.of_mem_filter hu
    simpa using this
  · intro h7
    rw [List.mem_map]
    exact ⟨t, List.mem_filter.mpr ⟨ht, by simpa using h7⟩, rfl⟩

/-- Witness for C2 at a concrete input. -/
theorem c2_candidate_accepted_iff_len7_witness :
    (prefix27 ++ "Ab3dE9f".toList) ∈
        extract_invites "see discord.gg/Ab3dE9f now".toList ↔
      ("Ab3dE9f".toList).length = 7 :=
  c2_candidate_accepted_iff_len7.1 "see discord.gg/Ab3dE9f now".toList
    "Ab3dE9f".toList (by decide)

/-- Claim C6: the extraction output never contains duplicates, and it is
exactly the first-seen deduplication (append only if not already present) of
the canonical URLs of the accepted candidates, in scan order. -/
theorem c6_output_nodup_first_seen (body : List Char) :
    (extract_invites body).Nodup ∧
    extract_invites body =
      dedupFirst (((raw_candidates body).filter (fun t => t.length == 7)).map
        (fun t => prefix27 ++ t)) := by
  refine ⟨?_, extract_invites_eq body⟩
  rw [extract_invites_eq body]
  unfold dedupFirst
  exact nodup_foldl_insertDedup _ [] List.nodup_nil

/-- Claim C9, counterexample: the accepted character class of the scan also
contains `/`, so a canonical URL can carry a token with a slash — violating
the spec's InviteToken invariant (alphanumeric, hyphen or underscore only). -/
theorem c9_token_with_slash :
    ∃ u, u ∈ extract_invites c9_body ∧
      ∃ c, c ∈ u.drop 27 ∧ is_invite_token_char c = false :=
  ⟨prefix27 ++ "ab/de9X".toList, by decide, '/', by decide, by decide⟩

/-- Claim C9, amended: every output element is the canonical prefix followed
by a 7-character token all of whose characters are ASCII alphanumeric, `-`,
`_` — or `/`, the extra character the code's scan class accepts. -/
theorem c9_token_charclass (body u : List Char) (hu : u ∈ extract_invites body) :
    ∃ t, u = prefix27 ++ t ∧ t.length = 7 ∧ ∀ c ∈ t, is_url_char c = true := by
  rw [extract_invites_eq body] at hu
  unfold dedupFirst at hu
  rw [mem_foldl_insertDedup] at hu
  simp only [List.not_mem_nil, false_or] at hu
  rw [List.mem_map] at hu
  obtain ⟨t, ht, rfl⟩ := hu
  have h7 := List.of_mem_filter ht
  have hmem := List.mem_of_mem_filter ht
  unfold raw_candidates at hmem
  exact ⟨t, rfl, by simpa using h7,
    fun c hc => raw_candidates_chars body.length body t hmem c hc⟩

/-- Witness for C9's amended theorem at a concrete input. -/
theorem c9_token_charclass_witness :
    ∃ t, (prefix27 ++ "Ab3dE9f".toList) = prefix27 ++ t ∧ t.length = 7 ∧
      ∀ c ∈ t, is_url_char c = true :=
  c9_token_charclass "see discord.gg/Ab3dE9f now".toList
    (prefix27 ++ "Ab3dE9f".toList) (by decide)

/-- Claim C8, counterexample: the code does not force the decoded invite's
`code` field to match the requested token, so a successful fetch of a
canonical URL can return an invite whose `get_url` differs from that URL:
with a decoder yielding code `zzzzzzz` for the request `.../invite/abcdefg`,
the fetch succeeds yet `get_url` disagrees with the input. -/
theorem c8_get_url_mismatch :
    Invite.fetch (fun _ => some c8_invite) (fun _ => some ⟨200, some []⟩)
        "https://discord.com/invite/abcdefg".toList = .ok c8_invite ∧
      Invite.get_url c8_invite ≠ "https://discord.com/invite/abcdefg".toList := by
  decide

/-- Claim C8, amended: when `Invite::fetch` succeeds on a canonical URL
`prefix27 ++ tok`, the token is non-empty, and `get_url` of the result equals
the input URL exactly when the decoded invite's `code` equals `tok` (which the
code itself does not enforce — it holds when the API echoes the token). -/
theorem c8_left_inverse (decode : List Char → Option Invite)
    (transport : List Char → Option Resp) (tok : List Char) (inv : Invite)
    (h : Invite.fetch decode transport (prefix27 ++ tok) = .ok inv) :
    tok ≠ [] ∧ (Invite.get_url inv = prefix27 ++ tok ↔ inv.code = tok) := by
  constructor
  · intro hre
    subst hre
    rw [List.append_nil] at h
    have hg : get_invite_code prefix27 = .value none := by decide
    unfold Invite.fetch at h
    rw [hg] at h
    exact absurd h (by simp)
  · unfold Invite.get_url
    constructor
    · intro he
      exact List.append_cancel_left he
    · intro he
      rw [he]

/-- Witness for C8's amended theorem at a concrete input. -/
theorem c8_left_inverse_witness :
    "abcdefg".toList ≠ ([] : List Char) ∧
      (Invite.get_url c8_good_invite = prefix27 ++ "abcdefg".toList ↔
        c8_good_invite.code = "abcdefg".toList) :=
  c8_left_inverse (fun _ => some c8_good_invite) (fun _ => some ⟨200, some []⟩)
    "abcdefg".toList c8_good_invite (by decide)
